import Mathlib

set_option maxRecDepth 100000

/- Verification development for the fs-indexer repository.

   Shallow embedding of src/indexer/indexer.py: the glob exclusion matcher
   (`FileIndexer._is_excluded`), extension extraction inside
   `FileIndexer._scan_directory`, the iterative work-list directory scanner,
   and the batching / deletion-sweep orchestration of `FileIndexer.run`. -/

namespace FsIndexer

/-- One character-class membership check with standard glob class semantics:
`a-z` ranges compare code points, other characters match literally (this is
what the regex class produced by Python `fnmatch.translate` does). -/
def matchClass : List Char → Char → Bool
  | a :: '-' :: b :: rest, c =>
    (a.toNat ≤ c.toNat && c.toNat ≤ b.toNat) || matchClass rest c
  | a :: rest, c => (a == c) || matchClass rest c
  | [], _ => false

/-- Scan for the closing `]` of a bracket class, returning the content before
it and the remainder after it. -/
def findClose : List Char → Option (List Char × List Char)
  | [] => none
  | ']' :: t => some ([], t)
  | c :: t => (findClose t).map (fun p => (c :: p.1, p.2))

/-- Split off a bracket-class body: Python `fnmatch.translate` lets a `]` in
the very first content position stand for itself, then scans for the next
`]`; `none` means the class is unclosed and the `[` is a literal. -/
def splitClass : List Char → Option (List Char × List Char)
  | ']' :: t => (findClose t).map (fun p => (']' :: p.1, p.2))
  | l => findClose l

/-- Fuel-indexed glob matcher modelling Python `fnmatch.fnmatchcase` (which
`fnmatch.fnmatch` reduces to on a POSIX platform): `*` matches any sequence
of characters (`/` included), `?` any single character, `[...]` a character
class with optional leading `!` negation, an unclosed `[` is a literal, and
the match is anchored at both ends.  Every recursive call consumes at least
one pattern or subject character, so fuel `pat.length + s.length + 1` always
reaches the answer (see `fnmatch` below). -/
def fnmatchF : Nat → List Char → List Char → Bool
  | 0, _, _ => false
  | _ + 1, [], s => s.isEmpty
  | fuel + 1, c :: p, s =>
    if c == '*' then
      fnmatchF fuel p s ||
        (match s with
         | [] => false
         | _ :: t => fnmatchF fuel (c :: p) t)
    else if c == '?' then
      match s with
      | [] => false
      | _ :: t => fnmatchF fuel p t
    else if c == '[' then
      let negRest : Bool × List Char :=
        match p with
        | b :: t => if b == '!' then (true, t) else (false, p)
        | [] => (false, p)
      match splitClass negRest.2 with
      | none =>
        match s with
        | [] => false
        | d :: t => (d == '[') && fnmatchF fuel p t
      | some (cs, pr) =>
        match s with
        | [] => false
        | d :: t => (matchClass cs d != negRest.1) && fnmatchF fuel pr t
    else
      match s with
      | [] => false
      | d :: t => (d == c) && fnmatchF fuel p t

/-- `fnmatch.fnmatch(s, pat)` on a case-sensitive (POSIX) platform. -/
def fnmatch (s pat : String) : Bool :=
  fnmatchF (pat.length + s.length + 1) pat.data s.data

/-- Helper for `splitSlash`: accumulates the current segment (reversed). -/
def splitSlashAux : List Char → List Char → List String
  | [], acc => [String.mk acc.reverse]
  | c :: rest, acc =>
    if c == '/' then String.mk acc.reverse :: splitSlashAux rest []
    else splitSlashAux rest (c :: acc)

/-- Python `path.split("/")`: split at every slash, keeping empty segments. -/
def splitSlash (s : String) : List String := splitSlashAux s.data []

/-- Python `"/".join(parts)`. -/
def joinSlash : List String → String
  | [] => ""
  | [s] => s
  | s :: rest => s ++ "/" ++ joinSlash rest

/-- The string `"/".join(parts[:i]) + "/"` — the ancestor-directory candidate
built inside `FileIndexer._is_excluded`. -/
def ancestorDir (parts : List String) (i : Nat) : String :=
  joinSlash (parts.take i) ++ "/"

/-- `FileIndexer._is_excluded`: the path is excluded when it matches some
configured pattern, or when some proper prefix of its `/`-separated parts,
with a trailing `/` appended, matches some pattern (the inner loop runs
`for i in range(1, len(parts))`). -/
def isExcluded (excludes : List String) (path : String) : Bool :=
  excludes.any fun pattern =>
    fnmatch path pattern ||
      (let parts := splitSlash path
       (List.range parts.length).any fun i =>
         decide (1 ≤ i) && fnmatch (ancestorDir parts i) pattern)

/-- Index of the last occurrence of `c` in the list, Python `str.rfind`. -/
def rfind (l : List Char) (c : Char) : Option Nat :=
  match l with
  | [] => none
  | a :: rest =>
    match rfind rest c with
    | some i => some (i + 1)
    | none => if a == c then some 0 else none

/-- The `while filenameIndex < dotIndex` scan of `posixpath.splitext`: does a
character other than `.` occur at some index strictly below `d`? -/
def hasNonDotBefore : List Char → Nat → Bool
  | _, 0 => false
  | [], _ => false
  | c :: rest, d + 1 => (c != '.') || hasNonDotBefore rest d

/-- `os.path.splitext(p)[1]` for a basename (no path separator present): the
extension including its dot; empty when there is no dot, or when every
character before the last dot is itself a dot (leading dots never begin an
extension). -/
def splitextExt (p : List Char) : List Char :=
  match rfind p '.' with
  | none => []
  | some d => if hasNonDotBefore p d then p.drop d else []

/-- The `ext` field computed in `FileIndexer._scan_directory`:
`os.path.splitext(basename)[1][1:].lower() if "." in basename else ""`
(ASCII lower-casing, which agrees with Python on the ASCII range). -/
def extOf (basename : String) : String :=
  if basename.data.contains '.' then
    String.mk (((splitextExt basename.data).drop 1).map Char.toLower)
  else ""

/-- Raw stat metadata of a file.  Timestamps are modelled as integers: the
source truncates `st_mtime` with `int(...)` before storing it, and the
stability check only compares timestamps. -/
structure FileMeta where
  dev : Nat
  ino : Nat
  size : Nat
  mtime : Int
  uid : Nat
  gid : Nat
  mode : Nat
deriving Repr, DecidableEq

/-- One directory entry as seen by `os.scandir`: a regular file, a
subdirectory with its listing, or a symbolic link (for which both
`is_dir(follow_symlinks=False)` and `is_file(follow_symlinks=False)` are
false). -/
inductive FSEntry where
  | file (name : String) (meta : FileMeta)
  | dir (name : String) (entries : List FSEntry)
  | symlink (name : String)
deriving Repr

/-- The fields of `Config` consulted by the scanner and orchestrator
(`root_name`, the loaded exclusion patterns, `stability_sec`,
`batch_size`). -/
structure Config where
  root_name : String
  excludes : List String
  stability_sec : Int
  batch_size : Nat
deriving Repr, DecidableEq

/-- The `self.stats` counters (the engine-reported deleted count of
`_sweep_deletions` and `start_time` are not modelled). -/
structure Stats where
  files_scanned : Nat := 0
  files_indexed : Nat := 0
  files_skipped : Nat := 0
  errors : Nat := 0
deriving Repr, DecidableEq

/-- The tuple yielded by `_scan_directory`, with its fields named as in the
`files` table schema. -/
structure FileRecord where
  id : Nat
  root : String
  path : String
  basename : String
  ext : String
  dirpath : String
  size : Nat
  mtime : Int
  uid : Nat
  gid : Nat
  mode : Nat
  seen_at : Int
deriving Repr, DecidableEq

/-- Modelled from the spec: `xxhash.xxh64_intdigest` is an external library
function, not part of this repository; §4.3 of the spec only requires a
deterministic 64-bit hash of the input.  Modelled as a concrete
deterministic 64-bit string hash (no claim depends on its values). -/
def xxh64_intdigest (s : String) : Nat :=
  (s.data.foldl (fun h c => h * 1099511628211 + c.toNat) 14695981039346656037)
    % (2 ^ 64)

/-- `FileIndexer._compute_file_id`. -/
def compute_file_id (dev ino : Nat) : Nat :=
  xxh64_intdigest (toString dev ++ ":" ++ toString ino)

/-- `os.path.relpath(dir + "/" + name, root)` for a clean root path: extend a
root-relative directory path (the root itself being `"."`) by one
component. -/
def relJoin (relDir name : String) : String :=
  if relDir == "." then name else relDir ++ "/" ++ name

/-- A work-list entry of `_scan_directory`: the directory's absolute path (as
pushed on `stack`), its path relative to the scan root (recomputed by the
source on every pop, carried here), and its `os.scandir` listing. -/
structure Frame where
  abs : String
  rel : String
  entries : List FSEntry
deriving Repr

/-- The record built for one stable, non-excluded regular file: `entry.path`
is `current_dir + "/" + name` and `dirpath = os.path.dirname(entry.path)` is
the containing directory. -/
def mkRecord (cfg : Config) (scanId : Int) (absDir name : String)
    (m : FileMeta) : FileRecord :=
  { id := compute_file_id m.dev m.ino
    root := cfg.root_name
    path := absDir ++ "/" ++ name
    basename := name
    ext := extOf name
    dirpath := absDir
    size := m.size
    mtime := m.mtime
    uid := m.uid
    gid := m.gid
    mode := m.mode
    seen_at := scanId }

/-- The `for entry in entries` body of `_scan_directory`: subdirectories are
pushed (in listing order), symlinks fall through both `is_dir` and `is_file`
checks and are skipped, and each regular file is checked against the
exclusion patterns and then the stability window before a record is
emitted.  Returns the pushed frames and the yielded records (both in listing
order) together with the updated stats. -/
def processEntries (cfg : Config) (now scanId : Int) (absDir relDir : String) :
    List FSEntry → Stats → List Frame × List FileRecord × Stats
  | [], st => ([], [], st)
  | FSEntry.dir name sub :: rest, st =>
    match processEntries cfg now scanId absDir relDir rest st with
    | (fs, rs, st1) =>
      (⟨absDir ++ "/" ++ name, relJoin relDir name, sub⟩ :: fs, rs, st1)
  | FSEntry.symlink _ :: rest, st =>
    processEntries cfg now scanId absDir relDir rest st
  | FSEntry.file name m :: rest, st =>
    if isExcluded cfg.excludes (relJoin relDir name) then
      processEntries cfg now scanId absDir relDir rest
        { st with files_skipped := st.files_skipped + 1 }
    else if now - m.mtime < cfg.stability_sec then
      processEntries cfg now scanId absDir relDir rest
        { st with files_skipped := st.files_skipped + 1 }
    else
      match processEntries cfg now scanId absDir relDir rest
          { st with files_scanned := st.files_scanned + 1 } with
      | (fs, rs, st1) => (fs, mkRecord cfg scanId absDir name m :: rs, st1)

/-- The `while stack` loop of `_scan_directory`.  The top of the Python stack
is the list head here; pushing the subdirectories `d1 .. dk` of the popped
directory appends them in order to the stack's end, i.e. prepends their
reversal.  A popped non-root directory whose relative path is excluded is
skipped without descending.  Structural fuel bounds the number of
iterations (each iteration pops exactly one directory, and each directory of
the finite tree is pushed at most once, which is why the source loop
terminates); the empty-stack case returns for any fuel. -/
def scanLoop (cfg : Config) (now scanId : Int) :
    Nat → List Frame → Stats → List FileRecord × Stats
  | _, [], st => ([], st)
  | 0, _ :: _, st => ([], st)
  | fuel + 1, f :: rest, st =>
    if f.rel != "." && isExcluded cfg.excludes f.rel then
      scanLoop cfg now scanId fuel rest st
    else
      match processEntries cfg now scanId f.abs f.rel f.entries st with
      | (pushed, recs, st1) =>
        match scanLoop cfg now scanId fuel (pushed.reverse ++ rest) st1 with
        | (recs2, st2) => (recs ++ recs2, st2)

/-- `FileIndexer._scan_directory`: a missing root is logged and yields
nothing (the stats are untouched, no exception escapes); otherwise the
work-list loop runs starting from the root frame, whose relative path is
`os.path.relpath(root_dir, root_dir) = "."`.  Any `fuel` at least the number
of directories in the tree yields the source loop's complete result. -/
def scan_directory (cfg : Config) (now scanId : Int) (rootDir : String)
    (root : Option (List FSEntry)) (fuel : Nat) (st : Stats) :
    List FileRecord × Stats :=
  match root with
  | none => ([], st)
  | some entries => scanLoop cfg now scanId fuel [⟨rootDir, ".", entries⟩] st

/-- The `for root_dir in self.config.scan_roots` iteration of `run`:
scan each configured root in order (a root is `none` when the directory does
not exist), collecting every yielded record in order and threading the
shared stats. -/
def scanRoots (cfg : Config) (now scanId : Int) (fuel : Nat) :
    List (String × Option (List FSEntry)) → Stats → List FileRecord × Stats
  | [], st => ([], st)
  | (dir, tree) :: rest, st =>
    match scan_directory cfg now scanId dir tree fuel st with
    | (rs, st1) =>
      match scanRoots cfg now scanId fuel rest st1 with
      | (rs2, st2) => (rs ++ rs2, st2)

/-- One network call issued by `run` against the engine: a `REPLACE INTO`
batch upsert, or the `DELETE ... WHERE root=... AND seen_at < scan_id`
deletion sweep. -/
inductive NetCall where
  | upsert (rows : List FileRecord)
  | sweep (root : String) (scanId : Int)
deriving Repr, DecidableEq

/-- How a run ends: normally, or by an exception propagating out of
`_bulk_upsert` or `_sweep_deletions` after their retries are exhausted. -/
inductive RunResult where
  | ok
  | upsertFailed
  | sweepFailed
deriving Repr, DecidableEq

/-- `tenacity.retry(stop=stop_after_attempt(3), wait=wait_exponential(...))`:
the decorated call succeeds when one of its (up to) three attempts succeeds;
when all three fail the exception propagates to the caller.  The backoff
schedule affects only real time, never the outcome. -/
def retrySucceeds (attempts : Nat → Bool) : Bool :=
  attempts 0 || attempts 1 || attempts 2

/-- The per-record loop of `run`: append each scanned record to `batch` and
flush through `_bulk_upsert` once `len(batch) >= batch_size`.  `ok k` is the
outcome of the `k`-th network call of the run after its retries (for a call
with attempt outcomes `g`, `ok k = retrySucceeds g`); a failed flush raises,
aborting the loop (`none`) with no further record processed.  On success the
remaining partial batch, the next call index and the stats (with
`files_indexed` increased by each successful flush) are returned.  Scanning
performs no network calls, so consuming the fully materialised record list
leaves the run's network-call trace unchanged. -/
def runLoop (bsz : Nat) (ok : Nat → Bool) :
    List FileRecord → List FileRecord → Nat → Stats →
      List NetCall × Option (List FileRecord × Nat × Stats)
  | [], batch, k, st => ([], some (batch, k, st))
  | r :: rest, batch, k, st =>
    let b2 := batch ++ [r]
    if bsz ≤ b2.length then
      if ok k then
        match runLoop bsz ok rest [] (k + 1)
            { st with files_indexed := st.files_indexed + b2.length } with
        | (cs, out) => (NetCall.upsert b2 :: cs, out)
      else ([NetCall.upsert b2], none)
    else runLoop bsz ok rest b2 k st

/-- `FileIndexer.run`: scan all roots, batching records with flushes at
`batch_size`; after the roots are exhausted flush the remaining partial
batch if it is non-empty (`if batch: self._bulk_upsert(batch)`); only then
invoke `_sweep_deletions(scan_id)`.  An upsert whose retries are exhausted
raises, ending the run before any further network call — in particular
before the sweep.  Returns the trace of issued network calls, the run's
outcome, and the final stats. -/
def run (cfg : Config) (now scanId : Int)
    (roots : List (String × Option (List FSEntry))) (fuel : Nat)
    (ok : Nat → Bool) : List NetCall × RunResult × Stats :=
  match scanRoots cfg now scanId fuel roots {} with
  | (records, st0) =>
    match runLoop cfg.batch_size ok records [] 0 st0 with
    | (cs, none) => (cs, RunResult.upsertFailed, st0)
    | (cs, some (batch, k, st)) =>
      if batch.isEmpty then
        (cs ++ [NetCall.sweep cfg.root_name scanId],
         if ok k then RunResult.ok else RunResult.sweepFailed, st)
      else
        if ok k then
          (cs ++ [NetCall.upsert batch, NetCall.sweep cfg.root_name scanId],
           if ok (k + 1) then RunResult.ok else RunResult.sweepFailed,
           { st with files_indexed := st.files_indexed + batch.length })
        else (cs ++ [NetCall.upsert batch], RunResult.upsertFailed, st)

/-- Modelled from the spec: the engine-side execution of the DELETE issued by
`_sweep_deletions` happens inside the external search engine, not in this
repository; §4.5 of the spec describes `delete_where(root, max_seen_at)` as
removing every stored document whose `root` matches and whose `seen_at` is
strictly below the cutoff.  The WHERE predicate is the one built verbatim in
`_sweep_deletions`:
`DELETE FROM files WHERE root='{root_name}' AND seen_at < {scan_id}`. -/
def delete_where (docs : List FileRecord) (rootName : String) (scanId : Int) :
    List FileRecord :=
  docs.filter fun d => !(d.root == rootName && decide (d.seen_at < scanId))

/-- Is this network call a batch upsert? -/
def isUpsert : NetCall → Bool
  | NetCall.upsert _ => true
  | NetCall.sweep _ _ => false

/-- All rows carried by the upsert calls of a trace, in order. -/
def rowsOf : List NetCall → List FileRecord
  | [] => []
  | NetCall.upsert rows :: rest => rows ++ rowsOf rest
  | NetCall.sweep _ _ :: rest => rowsOf rest

/-- The `ext` rule exactly as claim C10 states it: the lower-cased suffix
after the last dot of the basename, except that a basename with no dot, or
one whose only dot is its leading character (a dotfile such as
`.gitignore`), yields the empty string. -/
def extClaimC10 (b : String) : String :=
  if !b.data.contains '.' then ""
  else if b.data.head? == some '.' && !(b.data.drop 1).contains '.' then ""
  else
    match rfind b.data '.' with
    | none => ""
    | some d => String.mk ((b.data.drop (d + 1)).map Char.toLower)

/-- Stat metadata used by the concrete test trees; all mtimes are 100, far
older than the demo stability window at `now = 1000`. -/
def demoMeta (i : Nat) : FileMeta :=
  { dev := 1, ino := i, size := 10, mtime := 100, uid := 0, gid := 0, mode := 420 }

/-- Like `demoMeta` but with a chosen mtime, for the stability examples. -/
def demoMetaM (t : Int) : FileMeta :=
  { dev := 1, ino := 9, size := 10, mtime := t, uid := 0, gid := 0, mode := 420 }

/-- A configuration with no exclusions, the default 30-second stability
window and the default batch size. -/
def demoCfg : Config :=
  { root_name := "data", excludes := [], stability_sec := 30, batch_size := 2000 }

/-- `demoCfg` with the single bare directory-name pattern `".git"`. -/
def gitCfg : Config :=
  { root_name := "data", excludes := [".git"], stability_sec := 30,
    batch_size := 2000 }

/-- `demoCfg` with batch size 100, for the batching example. -/
def batchCfg : Config :=
  { root_name := "data", excludes := [], stability_sec := 30, batch_size := 100 }

/-- The exclusion patterns of the spec's testable-properties section. -/
def demoPatterns : List String :=
  ["*.log", "/tmp/**", "**/node_modules/**", ".git"]

/-- A root listing with five top-level files and one nested file. -/
def demoTree : List FSEntry :=
  [ FSEntry.file "a.txt" (demoMeta 1)
  , FSEntry.file "b.log" (demoMeta 2)
  , FSEntry.file "c" (demoMeta 3)
  , FSEntry.file ".gitignore" (demoMeta 4)
  , FSEntry.file "e.tar.gz" (demoMeta 5)
  , FSEntry.dir "sub" [FSEntry.file "nested.md" (demoMeta 6)] ]

/-- A flat root listing with 250 stable files, for the batching example. -/
def manyFiles : List FSEntry :=
  (List.range 250).map fun i => FSEntry.file (toString i ++ ".txt") (demoMeta i)

/-- A document stamped by an old pass (`seen_at = 1`). -/
def demoDocOld : FileRecord := mkRecord demoCfg 1 "/data" "old.txt" (demoMeta 1)

/-- A document re-observed by pass 2 (`seen_at = 2`). -/
def demoDocNew : FileRecord := mkRecord demoCfg 2 "/data" "new.txt" (demoMeta 2)

theorem scanLoop_nil (cfg : Config) (now scanId : Int) (fuel : Nat) (st : Stats) :
    scanLoop cfg now scanId fuel [] st = ([], st) := by
  cases fuel <;> rfl

theorem processEntries_cons_dir (cfg : Config) (now scanId : Int)
    (absDir relDir name : String) (sub rest : List FSEntry) (st : Stats) :
    processEntries cfg now scanId absDir relDir (FSEntry.dir name sub :: rest) st =
      ((⟨absDir ++ "/" ++ name, relJoin relDir name, sub⟩ : Frame) ::
          (processEntries cfg now scanId absDir relDir rest st).1,
        (processEntries cfg now scanId absDir relDir rest st).2.1,
        (processEntries cfg now scanId absDir relDir rest st).2.2) := rfl

theorem processEntries_cons_symlink (cfg : Config) (now scanId : Int)
    (absDir relDir ln : String) (rest : List FSEntry) (st : Stats) :
    processEntries cfg now scanId absDir relDir (FSEntry.symlink ln :: rest) st =
      processEntries cfg now scanId absDir relDir rest st := rfl

theorem processEntries_cons_file (cfg : Config) (now scanId : Int)
    (absDir relDir name : String) (m : FileMeta) (rest : List FSEntry)
    (st : Stats) :
    processEntries cfg now scanId absDir relDir (FSEntry.file name m :: rest) st =
      if isExcluded cfg.excludes (relJoin relDir name) then
        processEntries cfg now scanId absDir relDir rest
          { st with files_skipped := st.files_skipped + 1 }
      else if now - m.mtime < cfg.stability_sec then
        processEntries cfg now scanId absDir relDir rest
          { st with files_skipped := st.files_skipped + 1 }
      else
        ((processEntries cfg now scanId absDir relDir rest
            { st with files_scanned := st.files_scanned + 1 }).1,
          mkRecord cfg scanId absDir name m ::
            (processEntries cfg now scanId absDir relDir rest
              { st with files_scanned := st.files_scanned + 1 }).2.1,
          (processEntries cfg now scanId absDir relDir rest
            { st with files_scanned := st.files_scanned + 1 }).2.2) := rfl

theorem scanLoop_cons (cfg : Config) (now scanId : Int) (fuel : Nat)
    (f : Frame) (rest : List Frame) (st : Stats) :
    scanLoop cfg now scanId (fuel + 1) (f :: rest) st =
      if f.rel != "." && isExcluded cfg.excludes f.rel then
        scanLoop cfg now scanId fuel rest st
      else
        ((processEntries cfg now scanId f.abs f.rel f.entries st).2.1 ++
            (scanLoop cfg now scanId fuel
              ((processEntries cfg now scanId f.abs f.rel f.entries st).1.reverse
                ++ rest)
              (processEntries cfg now scanId f.abs f.rel f.entries st).2.2).1,
          (scanLoop cfg now scanId fuel
            ((processEntries cfg now scanId f.abs f.rel f.entries st).1.reverse
              ++ rest)
            (processEntries cfg now scanId f.abs f.rel f.entries st).2.2).2) := rfl

/-- Closed form of the records yielded by one directory listing. -/
theorem processEntries_records (cfg : Config) (now scanId : Int)
    (absDir relDir : String) :
    ∀ (entries : List FSEntry) (st : Stats),
      (processEntries cfg now scanId absDir relDir entries st).2.1 =
        entries.filterMap fun e =>
          match e with
          | FSEntry.file name m =>
            if isExcluded cfg.excludes (relJoin relDir name) then none
            else if now - m.mtime < cfg.stability_sec then none
            else some (mkRecord cfg scanId absDir name m)
          | _ => none := by
  intro entries
  induction entries with
  | nil => intro st; rfl
  | cons e rest ih =>
    intro st
    cases e with
    | file name m =>
      rw [processEntries_cons_file]
      by_cases hex : isExcluded cfg.excludes (relJoin relDir name) = true
      · simp [hex, ih]
      · by_cases hst : now - m.mtime < cfg.stability_sec
        · simp [hex, hst, ih]
        · simp [hex, hst, ih]
    | dir name sub => simp [processEntries_cons_dir, ih]
    | symlink ln => simp [processEntries_cons_symlink, ih]

/-- Closed form of the frames pushed by one directory listing: exactly the
subdirectory entries, in listing order. -/
theorem processEntries_pushed (cfg : Config) (now scanId : Int)
    (absDir relDir : String) :
    ∀ (entries : List FSEntry) (st : Stats),
      (processEntries cfg now scanId absDir relDir entries st).1 =
        entries.filterMap fun e =>
          match e with
          | FSEntry.dir name sub =>
            some (⟨absDir ++ "/" ++ name, relJoin relDir name, sub⟩ : Frame)
          | _ => none := by
  intro entries
  induction entries with
  | nil => intro st; rfl
  | cons e rest ih =>
    intro st
    cases e with
    | file name m =>
      rw [processEntries_cons_file]
      by_cases hex : isExcluded cfg.excludes (relJoin relDir name) = true
      · simp [hex, ih]
      · by_cases hst : now - m.mtime < cfg.stability_sec
        · simp [hex, hst, ih]
        · simp [hex, hst, ih]
    | dir name sub => simp [processEntries_cons_dir, ih]
    | symlink ln => simp [processEntries_cons_symlink, ih]

/-- The entry loop never touches `files_indexed`. -/
theorem processEntries_files_indexed (cfg : Config) (now scanId : Int)
    (absDir relDir : String) :
    ∀ (entries : List FSEntry) (st : Stats),
      (processEntries cfg now scanId absDir relDir entries st).2.2.files_indexed =
        st.files_indexed := by
  intro entries
  induction entries with
  | nil => intro st; rfl
  | cons e rest ih =>
    intro st
    cases e with
    | file name m =>
      rw [processEntries_cons_file]
      by_cases hex : isExcluded cfg.excludes (relJoin relDir name) = true
      · simp [hex, ih]
      · by_cases hst : now - m.mtime < cfg.stability_sec
        · simp [hex, hst, ih]
        · simp [hex, hst, ih]
    | dir name sub => simp [processEntries_cons_dir, ih]
    | symlink ln => simp [processEntries_cons_symlink, ih]

/-- Every record produced by the work-list loop carries `seen_at = scanId`. -/
theorem scanLoop_seen_at (cfg : Config) (now scanId : Int) :
    ∀ (fuel : Nat) (stack : List Frame) (st : Stats) (r : FileRecord),
      r ∈ (scanLoop cfg now scanId fuel stack st).1 → r.seen_at = scanId := by
  intro fuel
  induction fuel with
  | zero =>
    intro stack st r h
    cases stack with
    | nil => simp [scanLoop_nil] at h
    | cons f rest => simp [scanLoop] at h
  | succ fuel ih =>
    intro stack st r h
    cases stack with
    | nil => simp [scanLoop_nil] at h
    | cons f rest =>
      rw [scanLoop_cons] at h
      split at h
      · exact ih rest st r h
      · simp only [List.mem_append] at h
        rcases h with h | h
        · rw [processEntries_records] at h
          simp only [List.mem_filterMap] at h
          obtain ⟨e, _, hf⟩ := h
          cases e with
          | file name m =>
            simp only at hf
            split at hf
            · exact absurd hf (by simp)
            · split at hf
              · exact absurd hf (by simp)
              · injection hf with hf; subst hf; rfl
          | dir name sub => exact absurd hf (by simp)
          | symlink ln => exact absurd hf (by simp)
        · exact ih _ _ r h

/-- The work-list loop never touches `files_indexed`. -/
theorem scanLoop_files_indexed (cfg : Config) (now scanId : Int) :
    ∀ (fuel : Nat) (stack : List Frame) (st : Stats),
      (scanLoop cfg now scanId fuel stack st).2.files_indexed =
        st.files_indexed := by
  intro fuel
  induction fuel with
  | zero =>
    intro stack st
    cases stack with
    | nil => simp [scanLoop_nil]
    | cons f rest => simp [scanLoop]
  | succ fuel ih =>
    intro stack st
    cases stack with
    | nil => simp [scanLoop_nil]
    | cons f rest =>
      rw [scanLoop_cons]
      split
      · exact ih rest st
      · simp only
        rw [ih, processEntries_files_indexed]

/-- Scanning one root never touches `files_indexed`. -/
theorem scan_directory_files_indexed (cfg : Config) (now scanId : Int)
    (rootDir : String) (root : Option (List FSEntry)) (fuel : Nat) (st : Stats) :
    (scan_directory cfg now scanId rootDir root fuel st).2.files_indexed =
      st.files_indexed := by
  cases root with
  | none => rfl
  | some entries => exact scanLoop_files_indexed cfg now scanId fuel _ st

/-- Scanning the whole root list never touches `files_indexed`. -/
theorem scanRoots_files_indexed (cfg : Config) (now scanId : Int) (fuel : Nat) :
    ∀ (roots : List (String × Option (List FSEntry))) (st : Stats),
      (scanRoots cfg now scanId fuel roots st).2.files_indexed =
        st.files_indexed := by
  intro roots
  induction roots with
  | nil => intro st; rfl
  | cons root rest ih =>
    intro st
    obtain ⟨dir, tree⟩ := root
    show (scanRoots cfg now scanId fuel ((dir, tree) :: rest) st).2.files_indexed = _
    have h1 := scan_directory_files_indexed cfg now scanId dir tree fuel st
    have h2 := ih (scan_directory cfg now scanId dir tree fuel st).2
    calc (scanRoots cfg now scanId fuel ((dir, tree) :: rest) st).2.files_indexed
        = (scanRoots cfg now scanId fuel rest
            (scan_directory cfg now scanId dir tree fuel st).2).2.files_indexed := rfl
      _ = st.files_indexed := by rw [h2, h1]

theorem scanRoots_cons (cfg : Config) (now scanId : Int) (fuel : Nat)
    (dir : String) (tree : Option (List FSEntry))
    (rest : List (String × Option (List FSEntry))) (st : Stats) :
    scanRoots cfg now scanId fuel ((dir, tree) :: rest) st =
      ((scan_directory cfg now scanId dir tree fuel st).1 ++
          (scanRoots cfg now scanId fuel rest
            (scan_directory cfg now scanId dir tree fuel st).2).1,
        (scanRoots cfg now scanId fuel rest
          (scan_directory cfg now scanId dir tree fuel st).2).2) := rfl

/-- Claim C1: every record emitted by a scan pass carries `seen_at` equal to
that pass's scan identifier; and scanning a root holding five top-level
files and one nested file, all older than the stability window and none
excluded, yields exactly six records with the correct basenames and
extensions, each stamped with the supplied scan identifier `12345`. -/
theorem scan_records_seen_at :
    (∀ (cfg : Config) (now scanId : Int) (rootDir : String)
        (root : Option (List FSEntry)) (fuel : Nat) (st : Stats)
        (r : FileRecord),
        r ∈ (scan_directory cfg now scanId rootDir root fuel st).1 →
        r.seen_at = scanId)
    ∧ (scan_directory demoCfg 1000 12345 "/data" (some demoTree) 3 {}).1.map
          (fun r => (r.basename, r.ext, r.seen_at)) =
        [("a.txt", "txt", 12345), ("b.log", "log", 12345), ("c", "", 12345),
          (".gitignore", "", 12345), ("e.tar.gz", "gz", 12345),
          ("nested.md", "md", 12345)]
    ∧ (scan_directory demoCfg 1000 12345 "/data" (some demoTree) 3 {}).1.length
        = 6 := by
  refine ⟨?_, by decide, by decide⟩
  intro cfg now scanId rootDir root fuel st r h
  cases root with
  | none => simp [scan_directory] at h
  | some entries =>
    exact scanLoop_seen_at cfg now scanId fuel [⟨rootDir, ".", entries⟩] st r h

theorem scan_records_seen_at_witness :
    (mkRecord demoCfg 12345 "/data" "a.txt" (demoMeta 1)).seen_at = 12345 :=
  scan_records_seen_at.1 demoCfg 1000 12345 "/data" (some demoTree) 3 {}
    (mkRecord demoCfg 12345 "/data" "a.txt" (demoMeta 1)) (by decide)

/-- Claim C3: the deletion sweep with cutoff `scanId` retains a stored
document exactly when it does not satisfy the filter
`root = rootName AND seen_at < scanId`, so it removes exactly the matching
stale documents; a document re-observed by the pass (`seen_at = scanId`) is
never deleted. -/
theorem delete_where_spec (docs : List FileRecord) (rootName : String)
    (scanId : Int) (d : FileRecord) :
    (d ∈ delete_where docs rootName scanId ↔
      d ∈ docs ∧ ¬(d.root = rootName ∧ d.seen_at < scanId))
    ∧ (d ∈ docs → d.seen_at = scanId →
        d ∈ delete_where docs rootName scanId) := by
  have hiff : d ∈ delete_where docs rootName scanId ↔
      d ∈ docs ∧ ¬(d.root = rootName ∧ d.seen_at < scanId) := by
    simp [delete_where, List.mem_filter]
    tauto
  refine ⟨hiff, fun hd hs => hiff.mpr ⟨hd, ?_⟩⟩
  rintro ⟨-, hlt⟩
  omega

theorem delete_where_spec_witness :
    demoDocNew ∈ delete_where [demoDocOld, demoDocNew] "data" 2 :=
  (delete_where_spec [demoDocOld, demoDocNew] "data" 2 demoDocNew).2
    (by decide) (by decide)

/-- Claim C4: `_is_excluded` returns true exactly when the path matches some
pattern or some proper ancestor-directory prefix of the path (with a
trailing slash appended) matches some pattern; on the documented pattern
set it accepts `test.log`, `/tmp/file.txt`,
`project/node_modules/package.json` and `.git`, and rejects `test.txt` and
`src/main.py`. -/
theorem is_excluded_spec :
    (∀ (patterns : List String) (p : String),
        isExcluded patterns p = true ↔
          ((∃ pat ∈ patterns, fnmatch p pat = true) ∨
            (∃ i, 1 ≤ i ∧ i < (splitSlash p).length ∧
              ∃ pat ∈ patterns,
                fnmatch (ancestorDir (splitSlash p) i) pat = true)))
    ∧ isExcluded demoPatterns "test.log" = true
    ∧ isExcluded demoPatterns "/tmp/file.txt" = true
    ∧ isExcluded demoPatterns "project/node_modules/package.json" = true
    ∧ isExcluded demoPatterns ".git" = true
    ∧ isExcluded demoPatterns "test.txt" = false
    ∧ isExcluded demoPatterns "src/main.py" = false := by
  refine ⟨?_, by decide, by decide, by decide, by decide, by decide, by decide⟩
  intro patterns p
  simp only [isExcluded, List.any_eq_true, Bool.or_eq_true, List.mem_range,
    Bool.and_eq_true, decide_eq_true_eq]
  constructor
  · rintro ⟨pat, hmem, h | ⟨i, hlt, h1, hf⟩⟩
    · exact Or.inl ⟨pat, hmem, h⟩
    · exact Or.inr ⟨i, h1, hlt, pat, hmem, hf⟩
  · rintro (⟨pat, hmem, h⟩ | ⟨i, h1, hlt, pat, hmem, hf⟩)
    · exact ⟨pat, hmem, Or.inl h⟩
    · exact ⟨pat, hmem, Or.inr ⟨i, hlt, h1, hf⟩⟩

theorem is_excluded_spec_witness : isExcluded [".git"] ".git" = true :=
  (is_excluded_spec.1 [".git"] ".git").mpr
    (Or.inl ⟨".git", by decide, by decide⟩)

/-- Claim C5 as stated is false of `_is_excluded`: with the bare
directory-name pattern `".git"`, the path `".git/config"` strictly inside
that directory is NOT excluded — the only ancestor candidate is `".git/"`,
whose trailing slash the pattern does not match. -/
theorem bare_dir_pattern_deep_path_not_excluded :
    isExcluded [".git"] ".git/config" = false := by decide

/-- Claim C5 amended: a bare directory-name pattern excludes the entire
subtree through the scanner rather than through `_is_excluded` on the deep
paths themselves: a popped non-root directory whose relative path is
excluded is skipped without descending, so the listing below it is
irrelevant to the scan; in particular a `".git"` directory containing a
file yields no records under the pattern set `[".git"]`. -/
theorem excluded_dir_subtree_skipped :
    (∀ (cfg : Config) (now scanId : Int) (fuel : Nat) (a rel : String)
        (es1 es2 : List FSEntry) (rest : List Frame) (st : Stats),
        rel ≠ "." → isExcluded cfg.excludes rel = true →
        scanLoop cfg now scanId fuel (⟨a, rel, es1⟩ :: rest) st =
          scanLoop cfg now scanId fuel (⟨a, rel, es2⟩ :: rest) st)
    ∧ scan_directory gitCfg 1000 7 "/data"
        (some [FSEntry.dir ".git" [FSEntry.file "config" (demoMeta 1)]]) 2 {} =
      ([], {}) := by
  refine ⟨?_, by decide⟩
  intro cfg now scanId fuel a rel es1 es2 rest st hrel hex
  cases fuel with
  | zero => rfl
  | succ fuel =>
    rw [scanLoop_cons, scanLoop_cons]
    dsimp only
    have hc : (rel != "." && isExcluded cfg.excludes rel) = true := by
      simp [hex, hrel]
    rw [if_pos hc, if_pos hc]

theorem excluded_dir_subtree_skipped_witness :
    scanLoop gitCfg 1000 7 1
        [⟨"/data/.git", ".git", [FSEntry.file "config" (demoMeta 1)]⟩] {} =
      scanLoop gitCfg 1000 7 1 [⟨"/data/.git", ".git", []⟩] {} :=
  excluded_dir_subtree_skipped.1 gitCfg 1000 7 1 "/data/.git" ".git"
    [FSEntry.file "config" (demoMeta 1)] [] [] {} (by decide) (by decide)

/-- Claim C6: a regular, non-excluded file is skipped — counted in
`files_skipped`, with no record emitted — exactly when
`now - mtime < stability_sec`; otherwise it is emitted and counted in
`files_scanned`. -/
theorem stability_filter_spec (cfg : Config) (now scanId : Int)
    (rootDir name : String) (m : FileMeta) (fuel : Nat) (st : Stats)
    (hx : isExcluded cfg.excludes name = false) :
    (now - m.mtime < cfg.stability_sec →
      scan_directory cfg now scanId rootDir (some [FSEntry.file name m])
          (fuel + 1) st =
        ([], { st with files_skipped := st.files_skipped + 1 }))
    ∧ (cfg.stability_sec ≤ now - m.mtime →
      scan_directory cfg now scanId rootDir (some [FSEntry.file name m])
          (fuel + 1) st =
        ([mkRecord cfg scanId rootDir name m],
          { st with files_scanned := st.files_scanned + 1 })) := by
  have hrel : relJoin "." name = name := rfl
  constructor
  · intro h
    show scanLoop cfg now scanId (fuel + 1)
        [⟨rootDir, ".", [FSEntry.file name m]⟩] st = _
    rw [scanLoop_cons]
    dsimp only
    simp [processEntries_cons_file, hrel, hx, h, scanLoop_nil, processEntries]
  · intro h
    have h2 : ¬(now - m.mtime < cfg.stability_sec) := not_lt.mpr h
    show scanLoop cfg now scanId (fuel + 1)
        [⟨rootDir, ".", [FSEntry.file name m]⟩] st = _
    rw [scanLoop_cons]
    dsimp only
    simp [processEntries_cons_file, hrel, hx, h2, scanLoop_nil, processEntries]

theorem stability_filter_spec_witness :
    scan_directory demoCfg 1000 7 "/data"
        (some [FSEntry.file "fresh.txt" (demoMetaM 995)]) 1 {} =
      ([], { files_skipped := 1 })
    ∧ scan_directory demoCfg 1000 7 "/data"
        (some [FSEntry.file "old.txt" (demoMetaM 900)]) 1 {} =
      ([mkRecord demoCfg 7 "/data" "old.txt" (demoMetaM 900)],
        { files_scanned := 1 }) :=
  ⟨(stability_filter_spec demoCfg 1000 7 "/data" "fresh.txt" (demoMetaM 995) 0
      {} (by decide)).1 (by decide),
    (stability_filter_spec demoCfg 1000 7 "/data" "old.txt" (demoMetaM 900) 0
      {} (by decide)).2 (by decide)⟩

/-- Claim C9: a configured root that does not exist yields zero records and
leaves the stats untouched (the condition is handled, no exception
escapes), and the multi-root iteration simply skips it: scanning
`pre ++ [missing root] ++ post` produces exactly the records and stats of
`pre ++ post`, so the remaining roots are still scanned in order. -/
theorem missing_root_skipped (cfg : Config) (now scanId : Int) (fuel : Nat) :
    (∀ (rootDir : String) (st : Stats),
        scan_directory cfg now scanId rootDir none fuel st = ([], st))
    ∧ (∀ (pre post : List (String × Option (List FSEntry))) (dir : String)
          (st : Stats),
        scanRoots cfg now scanId fuel (pre ++ (dir, none) :: post) st =
          scanRoots cfg now scanId fuel (pre ++ post) st) := by
  constructor
  · intro rootDir st; rfl
  · intro pre post dir st
    induction pre generalizing st with
    | nil =>
      rw [List.nil_append, List.nil_append, scanRoots_cons]
      have h0 : scan_directory cfg now scanId dir none fuel st = ([], st) := rfl
      rw [h0]
      simp
    | cons p pres ih =>
      obtain ⟨d0, t0⟩ := p
      rw [List.cons_append, List.cons_append, scanRoots_cons, scanRoots_cons,
        ih]

/-- Claim C8: symbolic links are never followed: a symlink entry is neither
pushed onto the work list as a directory to traverse nor emitted as a file
record (nor even counted), so the scan of a directory listing with a
symlink inserted anywhere — for any work list, stats and fuel — is
identical to the scan without it; traversal therefore cannot cycle or
escape the root through links. -/
theorem symlinks_ignored (cfg : Config) (now scanId : Int) :
    (∀ (absDir relDir ln : String) (xs ys : List FSEntry) (st : Stats),
        processEntries cfg now scanId absDir relDir
            (xs ++ FSEntry.symlink ln :: ys) st =
          processEntries cfg now scanId absDir relDir (xs ++ ys) st)
    ∧ (∀ (fuel : Nat) (a rel ln : String) (xs ys : List FSEntry)
          (rest : List Frame) (st : Stats),
        scanLoop cfg now scanId fuel
            (⟨a, rel, xs ++ FSEntry.symlink ln :: ys⟩ :: rest) st =
          scanLoop cfg now scanId fuel (⟨a, rel, xs ++ ys⟩ :: rest) st) := by
  have hpe : ∀ (absDir relDir ln : String) (xs ys : List FSEntry) (st : Stats),
      processEntries cfg now scanId absDir relDir
          (xs ++ FSEntry.symlink ln :: ys) st =
        processEntries cfg now scanId absDir relDir (xs ++ ys) st := by
    intro absDir relDir ln xs ys
    induction xs with
    | nil =>
      intro st
      rw [List.nil_append, List.nil_append, processEntries_cons_symlink]
    | cons e res ih =>
      intro st
      cases e with
      | file name m =>
        rw [List.cons_append, List.cons_append, processEntries_cons_file,
          processEntries_cons_file]
        by_cases hex : isExcluded cfg.excludes (relJoin relDir name) = true
        · simp [hex, ih]
        · by_cases hst : now - m.mtime < cfg.stability_sec
          · simp [hex, hst, ih]
          · simp [hex, hst, ih]
      | dir name sub =>
        rw [List.cons_append, List.cons_append, processEntries_cons_dir,
          processEntries_cons_dir, ih]
      | symlink ln2 =>
        rw [List.cons_append, List.cons_append, processEntries_cons_symlink,
          processEntries_cons_symlink, ih]
  refine ⟨hpe, ?_⟩
  intro fuel a rel ln xs ys rest st
  cases fuel with
  | zero => rfl
  | succ fuel =>
    rw [scanLoop_cons, scanLoop_cons]
    dsimp only
    rw [hpe]

theorem rfind_eq_none (c : Char) :
    ∀ (l : List Char), c ∉ l → rfind l c = none := by
  intro l
  induction l with
  | nil => intro _; rfl
  | cons a res ih =>
    intro h
    simp only [List.mem_cons, not_or] at h
    have hne : (a == c) = false := by
      rw [beq_eq_false_iff_ne]
      exact fun hc => h.1 hc.symm
    simp [rfind, ih h.2, hne]

theorem rfind_last (c : Char) (pre post : List Char) (h : c ∉ post) :
    rfind (pre ++ c :: post) c = some pre.length := by
  induction pre with
  | nil =>
    rw [List.nil_append]
    simp [rfind, rfind_eq_none c post h]
  | cons a pres ih =>
    rw [List.cons_append]
    simp [rfind, ih]

theorem hasNonDotBefore_zero (l : List Char) : hasNonDotBefore l 0 = false := by
  cases l <;> rfl

theorem hasNonDotBefore_append :
    ∀ (pre res : List Char),
      hasNonDotBefore (pre ++ res) pre.length =
        pre.any fun c => c != '.' := by
  intro pre
  induction pre with
  | nil =>
    intro res
    rw [List.nil_append]
    exact hasNonDotBefore_zero res
  | cons a pres ih =>
    intro res
    rw [List.cons_append]
    show ((a != '.') || hasNonDotBefore (pres ++ res) pres.length) = _
    rw [ih]
    rfl

/-- Claim C10 as stated is false on the code: the basename `"..gitignore"`
has its last dot at index 1 and is not a dotfile "whose only dot is its
leading character", so the claimed rule yields `"gitignore"`; the code —
following `os.path.splitext`, which never starts an extension inside the
leading dots of a name — yields `""`. -/
theorem ext_claim_counterexample :
    extOf "..gitignore" = "" ∧ extClaimC10 "..gitignore" = "gitignore" ∧
      extOf "..gitignore" ≠ extClaimC10 "..gitignore" := by decide

/-- Claim C10 amended: for a basename `pre ++ "." ++ post` whose shown dot
is the last one (no dot occurs in `post`), the `ext` field is the
lower-cased `post` — except that it is empty whenever every character of
`pre` is itself a dot, which covers `".gitignore"` and `"..gitignore"`
alike; and a basename containing no dot at all yields the empty string. -/
theorem ext_spec_amended :
    (∀ (pre post : List Char), '.' ∉ post →
        extOf (String.mk (pre ++ '.' :: post)) =
          (if pre.all (fun c => c == '.') then ""
            else String.mk (post.map Char.toLower)))
    ∧ (∀ (l : List Char), '.' ∉ l → extOf (String.mk l) = "") := by
  constructor
  · intro pre post h
    have hcont : (pre ++ '.' :: post).contains '.' = true := by
      simp [List.contains, List.elem_eq_mem]
    simp only [extOf, String.data, hcont, if_true, splitextExt,
      rfind_last '.' pre post h, hasNonDotBefore_append pre ('.' :: post)]
    by_cases hall : pre.all (fun c => c == '.') = true
    · have hany : (pre.any fun c => c != '.') = false := by
        rw [List.any_eq_false]
        intro x hx
        have hbx := List.all_eq_true.mp hall x hx
        simp [bne, hbx]
      rw [if_pos hall, hany]
      simp
    · have hany : (pre.any fun c => c != '.') = true := by
        rw [List.any_eq_true]
        rw [List.all_eq_true] at hall
        push_neg at hall
        obtain ⟨x, hx, hnx⟩ := hall
        refine ⟨x, hx, ?_⟩
        simp only [bne]
        simp [Bool.not_eq_true] at hnx
        simp [hnx]
      rw [if_neg hall, hany]
      simp [List.drop_left]
  · intro l h
    have hcont : l.contains '.' = false := by
      simp [List.contains, List.elem_eq_mem, h]
    simp only [extOf, String.data, hcont]
    simp

theorem ext_spec_amended_witness :
    extOf (String.mk (['p', 'i', 'c'] ++ '.' :: ['J', 'P', 'G'])) =
      (if ['p', 'i', 'c'].all (fun c => c == '.') then ""
        else String.mk (['J', 'P', 'G'].map Char.toLower)) :=
  ext_spec_amended.1 ['p', 'i', 'c'] ['J', 'P', 'G'] (by decide)

theorem runLoop_nil (bsz : Nat) (ok : Nat → Bool) (batch : List FileRecord)
    (k : Nat) (st : Stats) :
    runLoop bsz ok [] batch k st = ([], some (batch, k, st)) := rfl

theorem runLoop_cons (bsz : Nat) (ok : Nat → Bool) (r : FileRecord)
    (rest batch : List FileRecord) (k : Nat) (st : Stats) :
    runLoop bsz ok (r :: rest) batch k st =
      (if bsz ≤ (batch ++ [r]).length then
        if ok k then
          (NetCall.upsert (batch ++ [r]) ::
              (runLoop bsz ok rest [] (k + 1)
                { st with files_indexed :=
                    st.files_indexed + (batch ++ [r]).length }).1,
            (runLoop bsz ok rest [] (k + 1)
              { st with files_indexed :=
                  st.files_indexed + (batch ++ [r]).length }).2)
        else ([NetCall.upsert (batch ++ [r])], none)
      else runLoop bsz ok rest (batch ++ [r]) k st) := rfl

/-- Every network call issued inside the per-record loop is an upsert: the
sweep can only be issued after the loop has finished. -/
theorem runLoop_calls_upserts (bsz : Nat) (ok : Nat → Bool) :
    ∀ (records batch : List FileRecord) (k : Nat) (st : Stats) (c : NetCall),
      c ∈ (runLoop bsz ok records batch k st).1 → isUpsert c = true := by
  intro records
  induction records with
  | nil => intro batch k st c h; simp [runLoop_nil] at h
  | cons r rest ih =>
    intro batch k st c h
    rw [runLoop_cons] at h
    by_cases hfl : bsz ≤ (batch ++ [r]).length
    · rw [if_pos hfl] at h
      by_cases hk : ok k = true
      · rw [if_pos hk] at h
        rcases List.mem_cons.mp h with rfl | h2
        · rfl
        · exact ih [] (k + 1) _ c h2
      · rw [if_neg hk] at h
        rcases List.mem_singleton.mp h with rfl
        rfl
    · rw [if_neg hfl] at h
      exact ih (batch ++ [r]) k st c h

theorem rowsOf_append :
    ∀ (a b : List NetCall), rowsOf (a ++ b) = rowsOf a ++ rowsOf b := by
  intro a b
  induction a with
  | nil => rfl
  | cons c rest ih => cases c <;> simp [rowsOf, ih]

/-- When the per-record loop returns normally, the rows carried by its
upsert calls followed by the remaining partial batch are exactly the
starting batch followed by all processed records: nothing is lost or
duplicated by the batching. -/
theorem runLoop_rows (bsz : Nat) (ok : Nat → Bool) :
    ∀ (records batch : List FileRecord) (k : Nat) (st : Stats)
      (cs : List NetCall) (leftover : List FileRecord) (k2 : Nat) (st2 : Stats),
      runLoop bsz ok records batch k st = (cs, some (leftover, k2, st2)) →
      rowsOf cs ++ leftover = batch ++ records := by
  intro records
  induction records with
  | nil =>
    intro batch k st cs leftover k2 st2 h
    rw [runLoop_nil] at h
    injection h with h1 h2
    subst h1
    injection h2 with h3
    injection h3 with h4 h5
    subst h4
    simp [rowsOf]
  | cons r rest ih =>
    intro batch k st cs leftover k2 st2 h
    rw [runLoop_cons] at h
    by_cases hfl : bsz ≤ (batch ++ [r]).length
    · rw [if_pos hfl] at h
      by_cases hk : ok k = true
      · rw [if_pos hk] at h
        rcases hR : runLoop bsz ok rest [] (k + 1)
            { st with files_indexed :=
                st.files_indexed + (batch ++ [r]).length }
          with ⟨cs1, out1⟩
        rw [hR] at h
        injection h with h1 h2
        subst h1
        cases out1 with
        | none => exact Option.noConfusion h2
        | some t =>
          obtain ⟨lo1, k1, s1⟩ := t
          injection h2 with h3
          injection h3 with h4 h5
          rw [← h4]
          have hrec := ih [] (k + 1)
            { st with files_indexed :=
                st.files_indexed + (batch ++ [r]).length } cs1 lo1 k1 s1 hR
          simp only [List.nil_append] at hrec
          simp [rowsOf, hrec, List.append_assoc]
      · rw [if_neg hk] at h
        injection h with h1 h2
        exact Option.noConfusion h2
    · rw [if_neg hfl] at h
      have hrec := ih (batch ++ [r]) k st cs leftover k2 st2 h
      simpa [List.append_assoc] using hrec

theorem ceil_div_of_mod_eq_zero (n bsz : Nat) (hb : 0 < bsz)
    (h : n % bsz = 0) : (n + bsz - 1) / bsz = n / bsz := by
  have h1 : bsz * (n / bsz) = n :=
    Nat.mul_div_cancel' (Nat.dvd_of_mod_eq_zero h)
  have h2 : n + bsz - 1 = bsz * (n / bsz) + (bsz - 1) := by
    rw [h1]
    omega
  rw [h2, Nat.mul_add_div hb,
    Nat.div_eq_of_lt (show bsz - 1 < bsz by omega)]
  rfl

theorem ceil_div_of_mod_ne_zero (n bsz : Nat) (hb : 0 < bsz)
    (h : n % bsz ≠ 0) : (n + bsz - 1) / bsz = n / bsz + 1 := by
  have hd := Nat.div_add_mod n bsz
  have hm := Nat.mod_lt n hb
  have h2 : n + bsz - 1 = bsz * (n / bsz + 1) + (n % bsz - 1) := by
    rw [Nat.mul_succ]
    revert hd hm h
    generalize bsz * (n / bsz) = A
    generalize n % bsz = M
    intro hd hm h
    omega
  have h3 : n % bsz - 1 < bsz := by
    revert hm
    generalize n % bsz = M
    intro hm
    omega
  rw [h2, Nat.mul_add_div hb, Nat.div_eq_of_lt h3]

/-- Running the per-record loop with every upsert succeeding: it returns
normally, performs exactly `(batch.length + records.length) / bsz` upsert
calls of exactly `bsz` rows each, leaves the partial batch
`(batch.length + records.length) % bsz`, advances the call counter by one
per call and adds `bsz` to `files_indexed` per call. -/
theorem runLoop_ok_spec (bsz : Nat) (ok : Nat → Bool)
    (hok : ∀ i, ok i = true) (hb : 0 < bsz) :
    ∀ (records batch : List FileRecord) (k : Nat) (st : Stats),
      batch.length < bsz →
      ∃ (cs : List NetCall) (leftover : List FileRecord) (k2 : Nat)
        (st2 : Stats),
        runLoop bsz ok records batch k st = (cs, some (leftover, k2, st2)) ∧
        k2 = k + cs.length ∧
        cs.length = (batch.length + records.length) / bsz ∧
        (∀ c ∈ cs, ∃ rows, c = NetCall.upsert rows ∧ rows.length = bsz) ∧
        leftover.length = (batch.length + records.length) % bsz ∧
        st2.files_indexed = st.files_indexed + bsz * cs.length := by
  intro records
  induction records with
  | nil =>
    intro batch k st hlt
    exact ⟨[], batch, k, st, rfl, by simp, by simp [Nat.div_eq_of_lt hlt],
      by simp, by simp [Nat.mod_eq_of_lt hlt], by simp⟩
  | cons r rest ih =>
    intro batch k st hlt
    by_cases hfl : bsz ≤ (batch ++ [r]).length
    · have hb1 : batch.length + 1 = bsz := by
        simp only [List.length_append, List.length_singleton] at hfl
        omega
      obtain ⟨cs, leftover, k2, st2, heq, hk2, hcnt, hall, hleft, hidx⟩ :=
        ih [] (k + 1)
          { st with files_indexed := st.files_indexed + (batch ++ [r]).length }
          hb
      refine ⟨NetCall.upsert (batch ++ [r]) :: cs, leftover, k2, st2,
        ?_, ?_, ?_, ?_, ?_, ?_⟩
      · rw [runLoop_cons, if_pos hfl, if_pos (hok k), heq]
      · simp only [List.length_cons]
        omega
      · have hcnt2 : cs.length = rest.length / bsz := by simpa using hcnt
        have hstep : batch.length + (r :: rest).length = rest.length + bsz := by
          simp only [List.length_cons]
          omega
        rw [List.length_cons, hstep, Nat.add_div_right _ hb, hcnt2]
      · intro c hc
        rcases List.mem_cons.mp hc with rfl | hc2
        · exact ⟨batch ++ [r], rfl,
            by simp only [List.length_append, List.length_singleton]; exact hb1⟩
        · exact hall c hc2
      · have hleft2 : leftover.length = rest.length % bsz := by simpa using hleft
        have hstep : batch.length + (r :: rest).length = rest.length + bsz := by
          simp only [List.length_cons]
          omega
        rw [hstep, Nat.add_mod_right]
        exact hleft2
      · have hidx2 : st2.files_indexed =
            st.files_indexed + (batch.length + 1) + bsz * cs.length := by
          simpa using hidx
        simp only [List.length_cons, Nat.mul_succ]
        omega
    · have hlt2 : (batch ++ [r]).length < bsz := by
        simp only [List.length_append, List.length_singleton] at hfl ⊢
        omega
      obtain ⟨cs, leftover, k2, st2, heq, hk2, hcnt, hall, hleft, hidx⟩ :=
        ih (batch ++ [r]) k st hlt2
      refine ⟨cs, leftover, k2, st2, ?_, hk2, ?_, hall, ?_, hidx⟩
      · rw [runLoop_cons, if_neg hfl, heq]
      · simp only [List.length_append, List.length_singleton] at hcnt
        simp only [List.length_cons]
        rw [show batch.length + (rest.length + 1) =
            batch.length + 1 + rest.length from by omega]
        exact hcnt
      · simp only [List.length_append, List.length_singleton] at hleft
        simp only [List.length_cons]
        rw [show batch.length + (rest.length + 1) =
            batch.length + 1 + rest.length from by omega]
        exact hleft

theorem run_eq (cfg : Config) (now scanId : Int)
    (roots : List (String × Option (List FSEntry))) (fuel : Nat)
    (ok : Nat → Bool) :
    run cfg now scanId roots fuel ok =
      (match runLoop cfg.batch_size ok
          (scanRoots cfg now scanId fuel roots {}).1 [] 0
          (scanRoots cfg now scanId fuel roots {}).2 with
      | (cs, none) => (cs, RunResult.upsertFailed,
          (scanRoots cfg now scanId fuel roots {}).2)
      | (cs, some (batch, k, st)) =>
        if batch.isEmpty then
          (cs ++ [NetCall.sweep cfg.root_name scanId],
            if ok k then RunResult.ok else RunResult.sweepFailed, st)
        else
          if ok k then
            (cs ++ [NetCall.upsert batch, NetCall.sweep cfg.root_name scanId],
              if ok (k + 1) then RunResult.ok else RunResult.sweepFailed,
              { st with files_indexed := st.files_indexed + batch.length })
          else (cs ++ [NetCall.upsert batch], RunResult.upsertFailed, st)) :=
  rfl

/-- Claim C7: when every network call succeeds, a run that scans `n` records
issues exactly `⌈n / batch_size⌉` upsert calls — each in-loop flush carries
exactly `batch_size` rows (the flush fires precisely when the batch reaches
that size) and the final partial batch is flushed only when non-empty — and
`files_indexed` totals `n` afterwards; with batch size 100 and 250 scanned
files, exactly 3 upsert calls are issued and `files_indexed` is 250. -/
theorem batching_spec :
    (∀ (cfg : Config) (now scanId : Int)
        (roots : List (String × Option (List FSEntry))) (fuel : Nat)
        (ok : Nat → Bool),
        (∀ i, ok i = true) → 0 < cfg.batch_size →
        ((run cfg now scanId roots fuel ok).1.filter isUpsert).length =
            ((scanRoots cfg now scanId fuel roots {}).1.length
              + cfg.batch_size - 1) / cfg.batch_size
          ∧ (run cfg now scanId roots fuel ok).2.2.files_indexed =
            (scanRoots cfg now scanId fuel roots {}).1.length
          ∧ (run cfg now scanId roots fuel ok).2.1 = RunResult.ok)
    ∧ ((run batchCfg 1000 7 [("/data", some manyFiles)] 1
          (fun _ => true)).1.filter isUpsert).length = 3
    ∧ (run batchCfg 1000 7 [("/data", some manyFiles)] 1
        (fun _ => true)).2.2.files_indexed = 250 := by
  refine ⟨?_, by decide, by decide⟩
  intro cfg now scanId roots fuel ok hok hb
  obtain ⟨cs, leftover, k2, st2, heq, hk2, hcnt, hall, hleft, hidx⟩ :=
    runLoop_ok_spec cfg.batch_size ok hok hb
      (scanRoots cfg now scanId fuel roots {}).1 [] 0
      (scanRoots cfg now scanId fuel roots {}).2 hb
  have hidx0 : (scanRoots cfg now scanId fuel roots {}).2.files_indexed = 0 :=
    scanRoots_files_indexed cfg now scanId fuel roots {}
  simp only [List.length_nil, Nat.zero_add] at hcnt hleft
  have hconj : cs.filter isUpsert = cs := by
    apply List.filter_eq_self.mpr
    intro c hc
    obtain ⟨rows, rfl, -⟩ := hall c hc
    rfl
  rw [run_eq, heq]
  dsimp only
  by_cases hle : leftover.isEmpty = true
  · rw [if_pos hle]
    have hl0 : leftover = [] := List.isEmpty_iff.mp hle
    have hmod : (scanRoots cfg now scanId fuel roots {}).1.length
        % cfg.batch_size = 0 := by
      rw [hl0] at hleft
      simpa using hleft.symm
    refine ⟨?_, ?_, ?_⟩
    · rw [List.filter_append, hconj]
      rw [ceil_div_of_mod_eq_zero _ _ hb hmod]
      simp [isUpsert, hcnt]
    · dsimp only
      rw [hidx, hidx0, hcnt]
      simpa using Nat.mul_div_cancel' (Nat.dvd_of_mod_eq_zero hmod)
    · dsimp only
      rw [if_pos (hok k2)]
  · rw [if_neg hle, if_pos (hok k2)]
    have hlne : leftover ≠ [] := fun hh => hle (by simp [hh])
    have hmod : (scanRoots cfg now scanId fuel roots {}).1.length
        % cfg.batch_size ≠ 0 := by
      intro hh
      rw [hh] at hleft
      exact hlne (List.length_eq_zero.mp hleft)
    refine ⟨?_, ?_, ?_⟩
    · rw [List.filter_append, hconj]
      rw [ceil_div_of_mod_ne_zero _ _ hb hmod]
      simp [isUpsert, hcnt]
    · dsimp only
      rw [hidx, hidx0, hcnt, hleft]
      simpa using Nat.div_add_mod
        (scanRoots cfg now scanId fuel roots {}).1.length cfg.batch_size
    · dsimp only
      rw [if_pos (hok (k2 + 1))]

theorem batching_spec_witness :
    ((run batchCfg 1000 7 [("/data", some manyFiles)] 1
        (fun _ => true)).1.filter isUpsert).length =
      ((scanRoots batchCfg 1000 7 1 [("/data", some manyFiles)] {}).1.length
        + batchCfg.batch_size - 1) / batchCfg.batch_size
    ∧ (run batchCfg 1000 7 [("/data", some manyFiles)] 1
        (fun _ => true)).2.2.files_indexed =
      (scanRoots batchCfg 1000 7 1 [("/data", some manyFiles)] {}).1.length
    ∧ (run batchCfg 1000 7 [("/data", some manyFiles)] 1
        (fun _ => true)).2.1 = RunResult.ok :=
  batching_spec.1 batchCfg 1000 7 [("/data", some manyFiles)] 1 (fun _ => true)
    (fun _ => rfl) (by decide)

/-- Claim C2: a sweep appears in a run's network-call trace only as the very
last call, after upsert calls that together carried every scanned record —
the final batch included; and when a `_bulk_upsert` call exhausts its
retries and raises, the run aborts as `upsertFailed` with the sweep never
issued. -/
theorem sweep_only_after_upserts (cfg : Config) (now scanId : Int)
    (roots : List (String × Option (List FSEntry))) (fuel : Nat)
    (ok : Nat → Bool) :
    ((run cfg now scanId roots fuel ok).2.1 = RunResult.upsertFailed →
      ∀ (r : String) (s : Int),
        NetCall.sweep r s ∉ (run cfg now scanId roots fuel ok).1)
    ∧ (∀ (r : String) (s : Int),
        NetCall.sweep r s ∈ (run cfg now scanId roots fuel ok).1 →
        ∃ cs,
          (run cfg now scanId roots fuel ok).1 = cs ++ [NetCall.sweep r s]
          ∧ (∀ c ∈ cs, isUpsert c = true)
          ∧ rowsOf cs = (scanRoots cfg now scanId fuel roots {}).1) := by
  rcases hloop : runLoop cfg.batch_size ok
      (scanRoots cfg now scanId fuel roots {}).1 [] 0
      (scanRoots cfg now scanId fuel roots {}).2 with ⟨cs0, out⟩
  have hup : ∀ c ∈ cs0, isUpsert c = true := by
    intro c hc
    apply runLoop_calls_upserts cfg.batch_size ok _ [] 0 _ c
    rw [hloop]
    exact hc
  cases out with
  | none =>
    rw [run_eq, hloop]
    dsimp only
    constructor
    · intro _ r s hmem
      exact absurd (hup _ hmem) (by simp [isUpsert])
    · intro r s hmem
      exact absurd (hup _ hmem) (by simp [isUpsert])
  | some t =>
    obtain ⟨leftover, k2, st2⟩ := t
    have hrows := runLoop_rows cfg.batch_size ok
      (scanRoots cfg now scanId fuel roots {}).1 [] 0
      (scanRoots cfg now scanId fuel roots {}).2 cs0 leftover k2 st2 hloop
    simp only [List.nil_append] at hrows
    rw [run_eq, hloop]
    dsimp only
    by_cases hle : leftover.isEmpty = true
    · rw [if_pos hle]
      have hl0 : leftover = [] := List.isEmpty_iff.mp hle
      rw [hl0, List.append_nil] at hrows
      constructor
      · intro hres
        by_cases hk : ok k2 = true
        · rw [if_pos hk] at hres
          exact absurd hres (by simp)
        · rw [if_neg hk] at hres
          exact absurd hres (by simp)
      · intro r s hmem
        rcases List.mem_append.mp hmem with hc | hc
        · exact absurd (hup _ hc) (by simp [isUpsert])
        · have heq2 := List.mem_singleton.mp hc
          injection heq2 with hr hs
          subst hr
          subst hs
          exact ⟨cs0, rfl, hup, hrows⟩
    · rw [if_neg hle]
      by_cases hk : ok k2 = true
      · rw [if_pos hk]
        constructor
        · intro hres
          dsimp only at hres
          by_cases hk1 : ok (k2 + 1) = true
          · rw [if_pos hk1] at hres
            exact absurd hres (by simp)
          · rw [if_neg hk1] at hres
            exact absurd hres (by simp)
        · intro r s hmem
          dsimp only at hmem
          rcases List.mem_append.mp hmem with hc | hc
          · exact absurd (hup _ hc) (by simp [isUpsert])
          · simp only [List.mem_cons, List.mem_singleton] at hc
            rcases hc with hc | hc | hc
            · exact absurd hc (by simp)
            · injection hc with hr hs
              subst hr
              subst hs
              refine ⟨cs0 ++ [NetCall.upsert leftover], by simp, ?_, ?_⟩
              · intro c hc2
                rcases List.mem_append.mp hc2 with h3 | h3
                · exact hup _ h3
                · rw [List.mem_singleton.mp h3]
                  rfl
              · rw [rowsOf_append]
                simpa [rowsOf] using hrows
            · exact absurd hc (by simp)
      · rw [if_neg hk]
        constructor
        · intro _ r s hmem
          dsimp only at hmem
          rcases List.mem_append.mp hmem with hc | hc
          · exact absurd (hup _ hc) (by simp [isUpsert])
          · exact absurd (List.mem_singleton.mp hc) (by simp)
        · intro r s hmem
          dsimp only at hmem
          rcases List.mem_append.mp hmem with hc | hc
          · exact absurd (hup _ hc) (by simp [isUpsert])
          · exact absurd (List.mem_singleton.mp hc) (by simp)

theorem sweep_only_after_upserts_witness :
    NetCall.sweep "data" 7 ∉
      (run demoCfg 1000 7
        [("/data", some [FSEntry.file "a.txt" (demoMeta 1)])] 1
        (fun _ => retrySucceeds fun _ => false)).1 :=
  (sweep_only_after_upserts demoCfg 1000 7
      [("/data", some [FSEntry.file "a.txt" (demoMeta 1)])] 1
      (fun _ => retrySucceeds fun _ => false)).1 (by decide) "data" 7


end FsIndexer
